import Mathlib

/-!
# Verification of the Kong-Debugger execution-control core

Shallow embedding of the Rust sources `src/inferior.rs`, `src/debugger.rs`,
`src/debugger_command.rs` and `src/llm.rs`.

Modelling conventions:
* `usize`/`u64` values are `Nat` with explicit `< 2 ^ 64` bounds; `u8` values
  are `Nat` with `< 256` bounds; `i64` values are `Int` with wrap-around
  (`% 2 ^ 64`) applied at `as usize` casts.
* Inferior memory is a map from (aligned) word addresses to 64-bit words,
  exactly as the trace facility exposes it (`ptrace::read`/`ptrace::write`
  operate on whole machine words).
* Kernel nondeterminism (the results of `waitpid` after a continue, step or
  spawn) is an input to each modelled operation: the wait outcomes are
  passed in as explicit `Status` arguments.  When the inferior runs, it may
  move `rip` anywhere (carried by the `Stopped` event) but does not write
  its own text segment, so memory is changed only by the debugger's
  `write_byte` calls.
* `panic!` / `Option::unwrap` on `None` are modelled by the `PanicOr.panic`
  constructor; trace calls that the debugger unconditionally `unwrap`s
  (`getregs`, `setregs`, `write_byte`, `ptrace::read`) are modelled as
  succeeding.
-/

namespace KongDbg

/-! ## Memory words and `write_byte` (src/inferior.rs) -/

/-- Inferior memory as seen through the trace facility: a map from word
addresses to 64-bit machine words.  Reads and writes performed by the code
always happen at addresses produced by `align_addr_to_word`. -/
abbrev Mem := Nat → Nat

/-- Representation invariant: every stored word is a 64-bit value. -/
def memWF (mem : Mem) : Prop := ∀ a, mem a < 2 ^ 64

/-- `fn align_addr_to_word(addr: usize) -> usize { addr & (-(size_of::<usize>() as isize) as usize) }`
On x86-64, `-(8 : isize) as usize` is `2 ^ 64 - 8`. -/
def align_addr_to_word (addr : Nat) : Nat := addr &&& (2 ^ 64 - 8)

/-- Byte extraction step of `Inferior::write_byte`:
`(word >> 8 * byte_offset) & 0xff`. -/
def getByte (w k : Nat) : Nat := (w >>> (8 * k)) &&& 0xff

/-- Word-update step of `Inferior::write_byte`:
`(word & !(0xff << 8 * byte_offset)) | ((val as u64) << 8 * byte_offset)`.
On `u64`, `!x` is `(2 ^ 64 - 1) ^^^ x`. -/
def setByte (w k v : Nat) : Nat :=
  (w &&& ((2 ^ 64 - 1) ^^^ (0xff <<< (8 * k)))) ||| (v <<< (8 * k))

/-- Shallow embedding of `Inferior::write_byte` (src/inferior.rs lines
119-132): align the address down to a word boundary, read the word, extract
the displaced byte, mask it out, OR in `val`, write the word back.  Returns
`(orig_byte, updated memory)`. -/
def write_byte (mem : Mem) (addr val : Nat) : Nat × Mem :=
  let aligned_addr := align_addr_to_word addr
  let byte_offset := addr - aligned_addr
  let word := mem aligned_addr
  let orig_byte := getByte word byte_offset
  let updated_word := setByte word byte_offset val
  (orig_byte, fun a => if a = aligned_addr then updated_word else mem a)

/-- Specification-level reader: the byte that inferior memory holds at a
(byte) address. -/
def byteAt (mem : Mem) (addr : Nat) : Nat :=
  getByte (mem (align_addr_to_word addr)) (addr % 8)

/-! ## Status, wait and spawn (src/inferior.rs) -/

/-- Signals as the controller distinguishes them: `SIGTRAP` versus any other
signal, the latter tagged with its number. -/
inductive Signal where
  | SIGTRAP : Signal
  | otherSig (n : Nat) : Signal
deriving DecidableEq, Repr

/-- `enum Status` from src/inferior.rs: the controller-level view of a wait
result. -/
inductive Status where
  | Stopped (signal : Signal) (rip : Nat) : Status
  | Exited (code : Int) : Status
  | Signaled (signal : Signal) : Status
deriving DecidableEq, Repr

/-- The kernel-level wait statuses of `nix::sys::wait::WaitStatus` that
`waitpid` can deliver. -/
inductive WaitStatus where
  | Exited (pid : Nat) (code : Int) : WaitStatus
  | Signaled (pid : Nat) (signal : Signal) (coreDumped : Bool) : WaitStatus
  | Stopped (pid : Nat) (signal : Signal) : WaitStatus
  | PtraceEvent (pid : Nat) (signal : Signal) (event : Int) : WaitStatus
  | PtraceSyscall (pid : Nat) : WaitStatus
  | Continued (pid : Nat) : WaitStatus
  | StillAlive : WaitStatus
deriving DecidableEq, Repr

/-- Computations that may `panic!` (or `unwrap` a `None`/`Err`) instead of
returning. -/
inductive PanicOr (α : Type) where
  | panic : PanicOr α
  | ok (a : α) : PanicOr α
deriving DecidableEq, Repr

/-- Shallow embedding of `Inferior::wait` (src/inferior.rs lines 90-100):
translate the kernel wait status to a `Status`.  `regsRip` is the `rip`
value that `ptrace::getregs` reports when the kernel says the inferior
stopped.  The catch-all arm of the `match` is
`other => panic!("waitpid returned unexpected status: {:?}", other)`. -/
def Inferior.wait (ws : WaitStatus) (regsRip : Nat) : PanicOr Status :=
  match ws with
  | .Exited _ code => .ok (.Exited code)
  | .Signaled _ signal _ => .ok (.Signaled signal)
  | .Stopped _ signal => .ok (.Stopped signal regsRip)
  | _ => .panic


/-! ## Breakpoints and the breakpoint table (src/inferior.rs, src/debugger.rs) -/

/-- `struct Breakpoint { addr: usize, orig_byte: u8 }` from src/inferior.rs. -/
structure Breakpoint where
  addr : Nat
  orig_byte : Nat
deriving DecidableEq, Repr

/-- The session's `break_point: HashMap<usize, Breakpoint>`, modelled as an
association list with unique keys (hash-map iteration order is fixed to list
order; no claim depends on the order). -/
abbrev BreakpointTable := List (Nat × Breakpoint)

/-- `HashMap::get`. -/
def lookupBp : BreakpointTable → Nat → Option Breakpoint
  | [], _ => none
  | (a, bp) :: rest, x => if x = a then some bp else lookupBp rest x

/-- `HashMap::insert`: overwrite the entry if the key is present, else add. -/
def insertBp : BreakpointTable → Nat → Breakpoint → BreakpointTable
  | [], a, bp => [(a, bp)]
  | (a', bp') :: rest, a, bp =>
      if a = a' then (a, bp) :: rest else (a', bp') :: insertBp rest a bp

/-- Register snapshot (`ptrace::getregs`): the controller reads `rip` and
`rbp` and writes `rip` only. -/
structure Regs where
  rip : Nat
  rbp : Nat
deriving DecidableEq, Repr

/-- A live inferior: its traced memory and registers.  `progMem` is ghost
state recording the pristine process image as spawned, used to state the
trap-coherence invariant; the modelled code never reads it. -/
structure InfState where
  mem : Mem
  regs : Regs
  progMem : Mem

/-- The breakpoint-planting loop of `Inferior::new` (src/inferior.rs lines
70-75): for every table entry, `write_byte(addr, 0xcc)` and store the
returned original byte into the entry. -/
def plantAll : BreakpointTable → Mem → Mem × BreakpointTable
  | [], mem => (mem, [])
  | (addr, bp) :: rest, mem =>
      let w := write_byte mem addr 0xcc
      let pr := plantAll rest w.2
      (pr.1, (addr, { bp with orig_byte := w.1 }) :: pr.2)

/-- Shallow embedding of `Inferior::new` (src/inferior.rs lines 55-81).
`spawnOk` is whether `Command::spawn` succeeded; the source runs
`cmd.args(args).spawn().ok().unwrap()`, so a spawn failure panics.
`progMem` is the memory image of the freshly spawned child.  After
planting every table entry, one wait is performed; its (already
translated) result is `waitEv`.  Only a `SIGTRAP` stop yields an
inferior; any other wait result discards it (`_ => None`). -/
def Inferior.new (spawnOk : Bool) (progMem : Mem) (table : BreakpointTable)
    (waitEv : Status) : PanicOr (Option (InfState × BreakpointTable)) :=
  match spawnOk with
  | false => .panic
  | true =>
    let p := plantAll table progMem
    match waitEv with
    | .Stopped .SIGTRAP rip =>
        .ok (some ({ mem := p.1, regs := { rip := rip, rbp := 0 }, progMem := progMem }, p.2))
    | _ => .ok none

/-! ## The debugger state machine (src/debugger.rs) -/

/-- The controller state between prompts: an optional live inferior and the
session-scoped breakpoint table. -/
structure Debugger where
  inferior : Option InfState
  break_point : BreakpointTable

/-- Instrumentation: the trace resumption calls a command issues, each
recording the machine state (memory, `rip`) at the moment the inferior is
resumed. -/
inductive TraceCall where
  | stepCall (mem : Mem) (rip : Nat) : TraceCall
  | contCall (mem : Mem) (rip : Nat) : TraceCall

/-- `inferior.continue_run(None)` plus the controller's handling of its
result (src/debugger.rs lines 140-154 and 76-90): on exit or termination
drop the inferior; on a stop keep it with the reported `rip`. -/
def doContinue (dbg : Debugger) (contEv : Status) : Debugger × List TraceCall :=
  match dbg.inferior with
  | none => (dbg, [])
  | some inf =>
    let log := [TraceCall.contCall inf.mem inf.regs.rip]
    match contEv with
    | .Exited _ => ({ dbg with inferior := none }, log)
    | .Signaled _ => ({ dbg with inferior := none }, log)
    | .Stopped _ rip =>
        ({ dbg with inferior := some { inf with regs := { inf.regs with rip := rip } } }, log)

/-- The `DebuggerCommand::Continue` arm (src/debugger.rs lines 95-158).
`stepEv` is the wait result of the single step (consumed only on the
step-over path), `contEv` the wait result of the final continue.  Mirrors
the source exactly: if `rip - 1` is a table key, restore `orig_byte`,
rewind `rip`, single-step; a `SIGTRAP` stop re-arms the trap; exit or
termination drops the inferior and returns to the prompt; any other stop
falls through to the continue without re-arming. -/
def continueCmd (dbg : Debugger) (stepEv contEv : Status) : Debugger × List TraceCall :=
  match dbg.inferior with
  | none => (dbg, [])
  | some inf =>
    let rip := inf.regs.rip
    let bp_addr := rip - 1
    match lookupBp dbg.break_point bp_addr with
    | some bp =>
      let w1 := write_byte inf.mem bp_addr bp.orig_byte
      let inf1 : InfState :=
        { inf with mem := w1.2, regs := { inf.regs with rip := bp_addr } }
      match stepEv with
      | .Stopped .SIGTRAP rip' =>
          let w2 := write_byte inf1.mem bp_addr 0xcc
          let inf2 : InfState :=
            { inf1 with mem := w2.2, regs := { inf1.regs with rip := rip' } }
          let r := doContinue { dbg with inferior := some inf2 } contEv
          (r.1, TraceCall.stepCall inf1.mem inf1.regs.rip :: r.2)
      | .Exited _ =>
          ({ dbg with inferior := none }, [TraceCall.stepCall inf1.mem inf1.regs.rip])
      | .Signaled _ =>
          ({ dbg with inferior := none }, [TraceCall.stepCall inf1.mem inf1.regs.rip])
      | .Stopped _ rip' =>
          let inf2 : InfState := { inf1 with regs := { inf1.regs with rip := rip' } }
          let r := doContinue { dbg with inferior := some inf2 } contEv
          (r.1, TraceCall.stepCall inf1.mem inf1.regs.rip :: r.2)
    | none => doContinue dbg contEv

/-- The `DebuggerCommand::Run` arm (src/debugger.rs lines 62-94): kill any
existing inferior, `Inferior::new` (spawn, plant, initial wait), then
immediately `continue_run`. -/
def runCmd (dbg : Debugger) (spawnOk : Bool) (progMem : Mem)
    (spawnEv contEv : Status) : PanicOr (Debugger × List TraceCall) :=
  match Inferior.new spawnOk progMem dbg.break_point spawnEv with
  | .panic => .panic
  | .ok none => .ok ({ inferior := none, break_point := dbg.break_point }, [])
  | .ok (some (inf, table')) =>
      .ok (doContinue { inferior := some inf, break_point := table' } contEv)

/-- The `DebuggerCommand::Break` arm (src/debugger.rs lines 169-202).
`addrOpt` is the address the DWARF index resolved for the argument (the
index is an external collaborator).  Insert a `{addr, orig_byte: 0}`
entry; if an inferior is live, `write_byte(addr, 0xcc)` and re-insert the
entry with the returned original byte. -/
def breakCmd (dbg : Debugger) (addrOpt : Option Nat) : Debugger :=
  match addrOpt with
  | none => dbg
  | some addr =>
    let bp : Breakpoint := { addr := addr, orig_byte := 0 }
    let table1 := insertBp dbg.break_point addr bp
    match dbg.inferior with
    | none => { dbg with break_point := table1 }
    | some inf =>
        let w := write_byte inf.mem addr 0xcc
        let table2 := insertBp table1 addr { addr := addr, orig_byte := w.1 }
        { inferior := some { inf with mem := w.2 }, break_point := table2 }

/-- How the `Next` arm's inner loop ended.  `reportNormal` is the
`print_stopped_info` + `break` of the plain single-step branch (line-check
passed); `reportBpOtherSignal` is the `print_stopped_info` + `break` of the
breakpoint branch when the over-step stop carried a non-`SIGTRAP` signal;
`outOfEvents` marks an exhausted event trace (the loop would keep
stepping). -/
inductive NextOutcome where
  | reportNormal (rip : Nat) : NextOutcome
  | reportBpOtherSignal (rip : Nat) : NextOutcome
  | exited (code : Int) : NextOutcome
  | signaled : NextOutcome
  | outOfEvents : NextOutcome
  | noInferior : NextOutcome
deriving DecidableEq, Repr

/-- The inner loop of the `DebuggerCommand::Next` arm (src/debugger.rs
lines 214-281), consuming one wait result per single step.  In the
breakpoint branch the `SIGTRAP` stop re-arms the trap and loops again with
no line check; only a non-`SIGTRAP` stop reports and terminates.  In the
plain branch a stop reports and terminates exactly when the new line
number differs from `current_line_number` and is `Some`. -/
def nextLoop (lineOf : Nat → Option Nat) (table : BreakpointTable)
    (current_line_number : Option Nat) :
    InfState → List Status → Option InfState × NextOutcome
  | inf, [] => (some inf, .outOfEvents)
  | inf, ev :: evs =>
    let rip := inf.regs.rip
    let bp_addr := rip - 1
    match lookupBp table bp_addr with
    | some bp =>
      let w1 := write_byte inf.mem bp_addr bp.orig_byte
      let inf1 : InfState :=
        { inf with mem := w1.2, regs := { inf.regs with rip := bp_addr } }
      match ev with
      | .Stopped .SIGTRAP rip' =>
          let w2 := write_byte inf1.mem bp_addr 0xcc
          nextLoop lineOf table current_line_number
            { inf1 with mem := w2.2, regs := { inf1.regs with rip := rip' } } evs
      | .Exited code => (none, .exited code)
      | .Signaled _ => (none, .signaled)
      | .Stopped _ rip' =>
          (some { inf1 with regs := { inf1.regs with rip := rip' } },
           .reportBpOtherSignal rip')
    | none =>
      match ev with
      | .Stopped _ rip' =>
          let inf' : InfState := { inf with regs := { inf.regs with rip := rip' } }
          let new_line_number := lineOf rip'
          if new_line_number ≠ current_line_number ∧ new_line_number.isSome
          then (some inf', .reportNormal rip')
          else nextLoop lineOf table current_line_number inf' evs
      | .Exited code => (none, .exited code)
      | .Signaled _ => (none, .signaled)

/-- The `DebuggerCommand::Next` arm (src/debugger.rs lines 204-285):
record the current line number, then run the step loop.  `lineOf` models
`debug_data.get_line_from_addr(..).map(|l| l.number)` (the DWARF index is
an external collaborator). -/
def nextCmd (lineOf : Nat → Option Nat) (dbg : Debugger) (evs : List Status) :
    Debugger × NextOutcome :=
  match dbg.inferior with
  | none => (dbg, .noInferior)
  | some inf =>
    let current_line_number := lineOf inf.regs.rip
    let r := nextLoop lineOf dbg.break_point current_line_number inf evs
    ({ dbg with inferior := r.1 }, r.2)

/-- One REPL command together with the kernel nondeterminism it consumes
(spawn success, process image, wait results, DWARF answers). -/
inductive Command where
  | runC (spawnOk : Bool) (progMem : Mem) (spawnEv contEv : Status) : Command
  | continueC (stepEv contEv : Status) : Command
  | nextC (evs : List Status) : Command
  | breakC (addrOpt : Option Nat) : Command

/-- Dispatch one command against the controller state, as the REPL loop in
`Debugger::run` does. -/
def execCmd (lineOf : Nat → Option Nat) (dbg : Debugger) :
    Command → PanicOr Debugger
  | .runC spawnOk progMem spawnEv contEv =>
      match runCmd dbg spawnOk progMem spawnEv contEv with
      | .panic => .panic
      | .ok r => .ok r.1
  | .continueC stepEv contEv => .ok (continueCmd dbg stepEv contEv).1
  | .nextC evs => .ok (nextCmd lineOf dbg evs).1
  | .breakC addrOpt => .ok (breakCmd dbg addrOpt)

/-- Run a sequence of commands, stopping at the first panic. -/
def execCmds (lineOf : Nat → Option Nat) : Debugger → List Command → PanicOr Debugger
  | dbg, [] => .ok dbg
  | dbg, c :: cs =>
      match execCmd lineOf dbg c with
      | .panic => .panic
      | .ok d => execCmds lineOf d cs

/-! ## The trap-coherence invariant -/

/-- Well-formedness of the breakpoint table: keys are unique (it is a
hash map) and are `usize` values. -/
def tableWF (table : BreakpointTable) : Prop :=
  (table.map Prod.fst).Nodup ∧ ∀ p ∈ table, p.1 < 2 ^ 64

/-- Trap coherence: whenever an inferior is live, every table entry is
planted — the byte at its address in inferior memory is `0xCC` and
`orig_byte` is the byte of the pristine program image there — and
addresses outside the table still hold their program-image byte. -/
def TrapInvariant (dbg : Debugger) : Prop :=
  tableWF dbg.break_point ∧
  ∀ inf, dbg.inferior = some inf →
    memWF inf.mem ∧ memWF inf.progMem ∧
    (∀ b bp, b < 2 ^ 64 → lookupBp dbg.break_point b = some bp →
        byteAt inf.mem b = 0xcc ∧ bp.orig_byte = byteAt inf.progMem b) ∧
    (∀ b, b < 2 ^ 64 → lookupBp dbg.break_point b = none →
        byteAt inf.mem b = byteAt inf.progMem b)

/-- A wait result is benign when any stop it reports is the expected
`SIGTRAP` (exits and terminations are always benign). -/
def benignStatus : Status → Prop
  | .Stopped sig _ => sig = .SIGTRAP
  | _ => True

/-- Benign kernel behaviour for one command: every single-step wait result
it consumes is benign. -/
def benignCmd : Command → Prop
  | .continueC stepEv _ => benignStatus stepEv
  | .nextC evs => ∀ ev ∈ evs, benignStatus ev
  | _ => True

/-- Side conditions of the amended trap-coherence claim: a `run` supplies a
well-formed process image, and a `break` that resolves to an address gives
a `usize` address that is not already planted in a live inferior. -/
def cmdOK (dbg : Debugger) : Command → Prop
  | .runC _ progMem _ _ => memWF progMem
  | .breakC (some addr) =>
      addr < 2 ^ 64 ∧ (dbg.inferior.isSome → lookupBp dbg.break_point addr = none)
  | _ => True

/-! ## Print-variable (src/debugger.rs lines 286-324) -/

/-- `dwarf_data::Location` as consumed by the print arm. -/
inductive Location where
  | Address (a : Nat) : Location
  | FramePointerOffset (offset : Int) : Location
deriving DecidableEq, Repr

/-- The fields of the DWARF variable record the print arm reads: its
location and its type's declared size in bytes. -/
structure DwarfVariable where
  location : Location
  size : Nat
deriving DecidableEq, Repr

/-- Rust `as usize` on an `i64` value: two's-complement wrap into `[0, 2^64)`. -/
def toUsize (z : Int) : Nat := (z % (2 ^ 64 : Int)).toNat

/-- What the print arm reports. -/
inductive PrintResult where
  | noInferior : PrintResult
  | notInScope : PrintResult
  | printed (value : Nat) : PrintResult
deriving DecidableEq, Repr

/-- The `DebuggerCommand::Print` arm.  `varLookup` is the result of
`debug_data.get_variable_by_name(rip, name)` (external DWARF index);
`rbp` is `regs.rbp as i64`; `readWord` is `ptrace::read` reinterpreted
`as u64` (its values are 64-bit words).  The effective address is the
location's address, or `(rbp + 16 + offset) as usize` for a frame-base
offset; the read word is masked by declared size 1/2/4, else kept whole. -/
def printCmd (hasInferior : Bool) (varLookup : Option DwarfVariable)
    (rbp : Int) (readWord : Nat → Nat) : PrintResult :=
  match hasInferior with
  | false => .noInferior
  | true =>
    match varLookup with
    | none => .notInScope
    | some var =>
      let addr : Nat :=
        match var.location with
        | .Address a => a
        | .FramePointerOffset offset => toUsize (rbp + 16 + offset)
      let value := readWord addr
      let masked :=
        match var.size with
        | 1 => value &&& 0xff
        | 2 => value &&& 0xffff
        | 4 => value &&& 0xffffffff
        | _ => value
      .printed masked

/-! ## Natural-language breakpoint resolution (src/llm.rs)

Strings are modelled as lists of Unicode characters.  The Rust code
indexes strings by bytes, but every index it forms is the byte offset of a
`find` hit advanced by the byte length of the needle, so at the character
level the two views agree on well-formed UTF-8.  `str::to_lowercase` is
modelled on the ASCII range (the only characters the code compares after
lowercasing are ASCII letters, digits and CJK characters, which Unicode
lowercasing leaves unchanged). -/

abbrev Text := List Char

/-- `char::is_ascii_digit`. -/
def isAsciiDigit (c : Char) : Bool := '0' ≤ c && c ≤ '9'

/-- `char::is_ascii_hexdigit`. -/
def isAsciiHexDigit (c : Char) : Bool :=
  isAsciiDigit c || ('a' ≤ c && c ≤ 'f') || ('A' ≤ c && c ≤ 'F')

/-- `char::is_whitespace`, restricted to the ASCII whitespace the inputs
use. -/
def isWhitespaceChar (c : Char) : Bool :=
  c = ' ' || c = '\t' || c = '\n' || c = '\r'

/-- `str::trim_start`. -/
def trimStart (t : Text) : Text := t.dropWhile isWhitespaceChar

/-- ASCII lowercasing of one character. -/
def asciiLower (c : Char) : Char :=
  if 'A' ≤ c && c ≤ 'Z' then Char.ofNat (c.toNat + 32) else c

/-- `str::to_lowercase` (ASCII range). -/
def toLower (t : Text) : Text := t.map asciiLower

/-- `str::find(needle)`: index of the first occurrence of `needle`. -/
def findSub (needle : Text) : Text → Option Nat
  | [] => if needle.isPrefixOf ([] : Text) then some 0 else none
  | c :: rest =>
      if needle.isPrefixOf (c :: rest) then some 0
      else (findSub needle rest).map (· + 1)

/-- `str::contains(needle)`. -/
def containsSub (hay needle : Text) : Bool := (findSub needle hay).isSome

/-- Decimal `usize` parse of a digit string (`str::parse::<usize>`):
errors on overflow. -/
def parseUsizeDec (t : Text) : Option Nat :=
  let v := t.foldl (fun acc c => acc * 10 + (c.toNat - '0'.toNat)) 0
  if v < 2 ^ 64 then some v else none

/-- Value of one hex digit. -/
def hexVal (c : Char) : Nat :=
  if isAsciiDigit c then c.toNat - '0'.toNat
  else if 'a' ≤ c && c ≤ 'f' then c.toNat - 'a'.toNat + 10
  else if 'A' ≤ c && c ≤ 'F' then c.toNat - 'A'.toNat + 10
  else 0

/-- `usize::from_str_radix(_, 16)`: errors on overflow. -/
def parseUsizeHex (t : Text) : Option Nat :=
  let v := t.foldl (fun acc c => acc * 16 + hexVal c) 0
  if v < 2 ^ 64 then some v else none

/-- `enum BreakpointSpec` from src/llm.rs. -/
inductive BreakpointSpec where
  | Line (file : Option Text) (line : Nat) : BreakpointSpec
  | Function (name : Text) : BreakpointSpec
  | Address (addr : Nat) : BreakpointSpec
deriving DecidableEq, Repr

/-- One function entry of the DWARF file list consumed by the resolver. -/
structure DFunction where
  name : Text
  line_number : Nat
deriving DecidableEq, Repr

/-- One file entry of `debug_data.files()`. -/
structure DFile where
  name : Text
  functions : List DFunction
deriving DecidableEq, Repr

/-- `fn parse_chinese_line` (src/llm.rs lines 203-227): find `第`, take
the ASCII digits after optional whitespace, and accept when what follows
the digits (after optional whitespace) starts with `行`, is empty, or does
not start with an ASCII digit. -/
def parse_chinese_line (text : Text) : Option BreakpointSpec :=
  match findSub ['第'] text with
  | none => none
  | some start_idx =>
    let after := trimStart (text.drop (start_idx + 1))
    let digits := after.takeWhile isAsciiDigit
    if digits.isEmpty then none
    else
      let after_digits := trimStart (after.drop digits.length)
      if (['行'] : Text).isPrefixOf after_digits || after_digits.isEmpty ||
          !(match after_digits with
            | c :: _ => isAsciiDigit c
            | [] => false)
      then
        match parseUsizeDec digits with
        | some line => some (.Line none line)
        | none => none
      else none

/-- `fn parse_english_line` (src/llm.rs lines 230-243): find `line`, take
the digits after optional whitespace. -/
def parse_english_line (text : Text) : Option BreakpointSpec :=
  match findSub ['l', 'i', 'n', 'e'] text with
  | none => none
  | some start_idx =>
    let after := trimStart (text.drop (start_idx + 4))
    let digits := after.takeWhile isAsciiDigit
    if digits.isEmpty then none
    else
      match parseUsizeDec digits with
      | some line => some (.Line none line)
      | none => none

/-- `fn parse_address_pattern` (src/llm.rs lines 246-260): find `0x`, take
the hex digits after it. -/
def parse_address_pattern (text : Text) : Option BreakpointSpec :=
  match findSub ['0', 'x'] text with
  | none => none
  | some start_idx =>
    let hex_digits := (text.drop (start_idx + 2)).takeWhile isAsciiHexDigit
    if hex_digits.isEmpty then none
    else
      match parseUsizeHex hex_digits with
      | some addr => some (.Address addr)
      | none => none

/-- The function-name fuzzy match of `try_simple_parse`, inner loop. -/
def findFuncInFile (text_lower : Text) : List DFunction → Option BreakpointSpec
  | [] => none
  | fn :: fns =>
      if containsSub text_lower (toLower fn.name)
      then some (.Function fn.name)
      else findFuncInFile text_lower fns

/-- The function-name fuzzy match of `try_simple_parse`, outer loop over
`debug_data.files()`. -/
def findFuncMatch (text_lower : Text) : List DFile → Option BreakpointSpec
  | [] => none
  | f :: fs =>
      match findFuncInFile text_lower f.functions with
      | some s => some s
      | none => findFuncMatch text_lower fs

/-- `fn try_simple_parse` (src/llm.rs lines 170-200): lowercase the input,
then try the Chinese line pattern, the English line pattern, the hex
address pattern, and finally the DWARF function fuzzy match. -/
def try_simple_parse (text : Text) (files : List DFile) : Option BreakpointSpec :=
  let text_lower := toLower text
  match parse_chinese_line text_lower with
  | some spec => some spec
  | none =>
    match parse_english_line text_lower with
    | some spec => some spec
    | none =>
      match parse_address_pattern text_lower with
      | some spec => some spec
      | none => findFuncMatch text_lower files

/-- The process-wide response cache (a mutex-guarded `HashMap<String,
BreakpointSpec>`), modelled as an association list threaded through the
call. -/
abbrev LlmCache := List (Text × BreakpointSpec)

/-- `Cache::get`. -/
def cacheGet : LlmCache → Text → Option BreakpointSpec
  | [], _ => none
  | (k, v) :: rest, x => if x = k then some v else cacheGet rest x

/-- `Cache::insert`. -/
def cacheInsert : LlmCache → Text → BreakpointSpec → LlmCache
  | [], k, v => [(k, v)]
  | (k', v') :: rest, k, v =>
      if k = k' then (k, v) :: rest else (k', v') :: cacheInsert rest k v

/-- Which stage of `parse_with_fallback` produced the result. -/
inductive ResolveStage where
  | cacheHit : ResolveStage
  | offline : ResolveStage
  | llm : ResolveStage
deriving DecidableEq, Repr

/-- `fn parse_with_fallback` (src/llm.rs lines 380-413): consult the cache
first and return any hit; then the offline matcher, writing a success to
the cache; only then the remote LLM call (modelled by the `llmCall`
oracle, which stands for `parse_natural_breakpoint`'s result), whose
success is also cached.  The returned stage records which source answered. -/
def parse_with_fallback (cache : LlmCache) (natural_text : Text)
    (files : List DFile) (llmCall : Except Unit BreakpointSpec) :
    Except Unit (BreakpointSpec × ResolveStage) × LlmCache :=
  match cacheGet cache natural_text with
  | some cached => (.ok (cached, .cacheHit), cache)
  | none =>
    match try_simple_parse natural_text files with
    | some spec => (.ok (spec, .offline), cacheInsert cache natural_text spec)
    | none =>
      match llmCall with
      | .error e => (.error e, cache)
      | .ok spec => (.ok (spec, .llm), cacheInsert cache natural_text spec)


/-! ## Concrete instances used by the verification -/

/-- A program image whose byte at `0x1000` is `0x55` (all other words 0). -/
def memA : Mem := fun a => if a = 0x1000 then 0x55 else 0

/-- `memA` with the trap byte planted at `0x1000`. -/
def memB : Mem := (write_byte memA 0x1000 0xcc).2

/-- An inferior of image `memA`, trap planted at `0x1000`, stopped at
`0x1001` (one byte past the trap). -/
def infB : InfState :=
  { mem := memB, regs := { rip := 0x1001, rbp := 0 }, progMem := memA }

/-- An inferior of image `memA` with no trap planted, stopped at `0x1001`. -/
def infC : InfState :=
  { mem := memA, regs := { rip := 0x1001, rbp := 0 }, progMem := memA }

/-- A session with `infB` live and its breakpoint at `0x1000` recorded. -/
def dbgB : Debugger :=
  { inferior := some infB,
    break_point := [(0x1000, { addr := 0x1000, orig_byte := 0x55 })] }

/-- A session with `infC` live and an empty table. -/
def dbgC : Debugger := { inferior := some infC, break_point := [] }

/-- The empty Idle session. -/
def dbg0 : Debugger := { inferior := none, break_point := [] }

/-- A DWARF line map placing `0x1001` on line 5 and `0x2000` on line 7. -/
def lineOfC : Nat → Option Nat := fun a =>
  if a = 0x1001 then some 5 else if a = 0x2000 then some 7 else none

/-- A DWARF line map placing both `0x1001` and `0x2000` on line 5. -/
def lineOfD : Nat → Option Nat := fun a =>
  if a = 0x1001 then some 5 else if a = 0x2000 then some 5 else none

/-- A DWARF line map placing `0x1001` on line 5 and both `0x2000` and
`0x3000` on line 7. -/
def lineOfE : Nat → Option Nat := fun a =>
  if a = 0x1001 then some 5
  else if a = 0x2000 then some 7
  else if a = 0x3000 then some 7 else none

/-- Forget which panic occurred. -/
def PanicOr.toOption : PanicOr α → Option α
  | .panic => none
  | .ok a => some a

/-- A session script: break at `0x1000`, run (the continue stops at the
breakpoint), then break at `0x1000` again while the inferior is live. -/
def cmds1 : List Command :=
  [Command.breakC (some 0x1000),
   Command.runC true memA (.Stopped .SIGTRAP 0x401000) (.Stopped .SIGTRAP 0x1001),
   Command.breakC (some 0x1000)]

/-- The NL input `第 10 行`. -/
def nlText1 : Text := ['第', ' ', '1', '0', ' ', '行']

/-- The NL input `第10行`. -/
def nlText2 : Text := ['第', '1', '0', '行']

/-- The NL input `第 10`. -/
def nlText3 : Text := ['第', ' ', '1', '0']

/-- The effective address of a variable location as the spec states it:
the absolute address, or `(rbp + 16 + offset) as usize`. -/
def effective_addr (loc : Location) (rbp : Int) : Nat :=
  match loc with
  | .Address a => a
  | .FramePointerOffset offset => toUsize (rbp + 16 + offset)

/-! ### Bit-level lemmas -/

theorem testBit_byteMask (i : Nat) : Nat.testBit 0xff i = decide (i < 8) := by
  have h : (0xff : Nat) = 2 ^ 8 - 1 := by norm_num
  rw [h, Nat.testBit_two_pow_sub_one]

theorem testBit_of_ge_64 {w : Nat} (hw : w < 2 ^ 64) {i : Nat} (hi : 64 ≤ i) :
    w.testBit i = false :=
  Nat.testBit_lt_two_pow
    (lt_of_lt_of_le hw (Nat.pow_le_pow_right (n := 2) (by norm_num) hi))

theorem testBit_byte_high {v : Nat} (hv : v < 256) {i : Nat} (hi : 8 ≤ i) :
    v.testBit i = false := by
  apply Nat.testBit_lt_two_pow
  calc v < 256 := hv
    _ = 2 ^ 8 := by norm_num
    _ ≤ 2 ^ i := Nat.pow_le_pow_right (n := 2) (by norm_num) hi

theorem getByte_lt (w k : Nat) : getByte w k < 256 := by
  have h : getByte w k ≤ 0xff := Nat.and_le_right
  omega

theorem setByte_lt {w k v : Nat} (hw : w < 2 ^ 64) (hk : k < 8)
    (hv : v < 256) : setByte w k v < 2 ^ 64 := by
  apply Nat.lt_pow_two_of_testBit
  intro i hi
  simp only [setByte, Nat.testBit_or, Nat.testBit_and, Nat.testBit_xor,
    Nat.testBit_shiftLeft, Nat.testBit_two_pow_sub_one, testBit_byteMask]
  have h1 : w.testBit i = false := testBit_of_ge_64 hw hi
  have h2 : v.testBit (i - 8 * k) = false := testBit_byte_high hv (by omega)
  simp [h1, h2]

theorem getByte_setByte_self {w k v : Nat} (hk : k < 8) (hv : v < 256) :
    getByte (setByte w k v) k = v := by
  apply Nat.eq_of_testBit_eq
  intro i
  simp only [getByte, setByte, Nat.testBit_and, Nat.testBit_or,
    Nat.testBit_xor, Nat.testBit_shiftLeft, Nat.testBit_shiftRight,
    Nat.testBit_two_pow_sub_one, testBit_byteMask]
  by_cases hi : i < 8
  · have e1 : (decide (8 * k + i ≥ 8 * k) : Bool) = true := by
      simp only [ge_iff_le, decide_eq_true_eq]; omega
    have e2 : 8 * k + i - 8 * k = i := by omega
    have e3 : (decide (8 * k + i < 64) : Bool) = true := by
      simp only [decide_eq_true_eq]; omega
    have e4 : (decide (8 * k + i - 8 * k < 8) : Bool) = true := by
      simp only [decide_eq_true_eq]; omega
    simp [e1, e2, e3, e4, hi]
  · have h2 : v.testBit i = false := testBit_byte_high hv (by omega)
    simp [hi, h2]

theorem getByte_setByte_ne {w k v j : Nat} (hk : k < 8) (hj : j < 8)
    (hne : j ≠ k) (hv : v < 256) :
    getByte (setByte w k v) j = getByte w j := by
  apply Nat.eq_of_testBit_eq
  intro i
  simp only [getByte, setByte, Nat.testBit_and, Nat.testBit_or,
    Nat.testBit_xor, Nat.testBit_shiftLeft, Nat.testBit_shiftRight,
    Nat.testBit_two_pow_sub_one, testBit_byteMask]
  by_cases hi : i < 8
  · have e3 : (decide (8 * j + i < 64) : Bool) = true := by
      simp only [decide_eq_true_eq]; omega
    by_cases hge : 8 * k ≤ 8 * j + i
    · -- then j > k, so the target byte position is at least 8 above 8*k
      have hjk : k < j := by omega
      have hbig : 8 ≤ 8 * j + i - 8 * k := by omega
      have h2 : v.testBit (8 * j + i - 8 * k) = false :=
        testBit_byte_high hv hbig
      have e4 : (decide (8 * j + i - 8 * k < 8) : Bool) = false := by
        simp only [decide_eq_false_iff_not]; omega
      simp [hge, h2, e3, e4]
    · have e5 : (decide (8 * k ≤ 8 * j + i) : Bool) = false := by
        simp only [decide_eq_false_iff_not]; omega
      simp [e5, e3]
  · simp [hi]

theorem setByte_restore {w k v : Nat} (hw : w < 2 ^ 64) (hk : k < 8)
    (hv : v < 256) : setByte (setByte w k v) k (getByte w k) = w := by
  apply Nat.eq_of_testBit_eq
  intro i
  simp only [getByte, setByte, Nat.testBit_and, Nat.testBit_or,
    Nat.testBit_xor, Nat.testBit_shiftLeft, Nat.testBit_shiftRight,
    Nat.testBit_two_pow_sub_one, testBit_byteMask]
  by_cases hi64 : i < 64
  · by_cases hlo : i < 8 * k
    · have e1 : (decide (8 * k ≤ i) : Bool) = false := by
        simp only [decide_eq_false_iff_not]; omega
      simp [e1, hi64]
    · by_cases hhi : i < 8 * k + 8
      · have e1 : (decide (8 * k ≤ i) : Bool) = true := by
          simp only [decide_eq_true_eq]; omega
        have e2 : (decide (i - 8 * k < 8) : Bool) = true := by
          simp only [decide_eq_true_eq]; omega
        have e3 : 8 * k + (i - 8 * k) = i := by omega
        simp [e1, e2, e3, hi64]
      · have e2 : (decide (i - 8 * k < 8) : Bool) = false := by
          simp only [decide_eq_false_iff_not]; omega
        have h2 : v.testBit (i - 8 * k) = false :=
          testBit_byte_high hv (by omega)
        simp [e2, h2, hi64]
  · have h1 : w.testBit i = false := testBit_of_ge_64 hw (by omega)
    have e2 : (decide (i - 8 * k < 8) : Bool) = false := by
      simp only [decide_eq_false_iff_not]; omega
    have e3 : (decide (i < 64) : Bool) = false := by simp; omega
    simp [h1, e2, e3]

/-! ### Address alignment lemmas -/

theorem align_addr_to_word_eq {addr : Nat} (h : addr < 2 ^ 64) :
    align_addr_to_word addr = 8 * (addr / 8) := by
  have hsh : 8 * (addr / 8) = (addr >>> 3) <<< 3 := by
    rw [Nat.shiftRight_eq_div_pow, Nat.shiftLeft_eq]
    have e8 : (2 : Nat) ^ 3 = 8 := by norm_num
    rw [e8]
    omega
  rw [hsh]
  apply Nat.eq_of_testBit_eq
  intro i
  simp only [align_addr_to_word, Nat.testBit_and, Nat.testBit_shiftLeft,
    Nat.testBit_shiftRight]
  have hmask : Nat.testBit (2 ^ 64 - 8) i = decide (3 ≤ i ∧ i < 64) := by
    have e : (2 ^ 64 - 8 : Nat) = (2 ^ 61 - 1) <<< 3 := by
      rw [Nat.shiftLeft_eq]
      norm_num
    rw [e, Nat.testBit_shiftLeft, Nat.testBit_two_pow_sub_one]
    by_cases h3 : 3 ≤ i
    · by_cases h64 : i < 64
      · have e1 : i - 3 < 61 := by omega
        simp [h3, h64, e1]
      · have e1 : ¬(i - 3 < 61) := by omega
        simp [h3, h64, e1]
    · simp [h3]
  rw [hmask]
  by_cases h3 : 3 ≤ i
  · by_cases h64 : i < 64
    · have e : 3 + (i - 3) = i := by omega
      simp [h3, h64, e]
    · have h1 : addr.testBit i = false := testBit_of_ge_64 h (by omega)
      have e : 3 + (i - 3) = i := by omega
      simp [h3, h64, e, h1]
  · have h3a : (decide (3 ≤ i ∧ i < 64) : Bool) = false := by
      simp only [decide_eq_false_iff_not]; omega
    simp [h3, h3a]

theorem byte_offset_eq {addr : Nat} (h : addr < 2 ^ 64) :
    addr - align_addr_to_word addr = addr % 8 := by
  rw [align_addr_to_word_eq h]
  omega

theorem align_self_of_align {addr : Nat} (h : addr < 2 ^ 64) :
    align_addr_to_word (align_addr_to_word addr) = align_addr_to_word addr := by
  rw [align_addr_to_word_eq h]
  have h8 : 8 * (addr / 8) < 2 ^ 64 := by omega
  rw [align_addr_to_word_eq h8]
  omega

/-! ### `write_byte` correctness lemmas -/

theorem write_byte_fst {mem : Mem} {addr : Nat} (h : addr < 2 ^ 64)
    (val : Nat) : (write_byte mem addr val).1 = byteAt mem addr := by
  simp only [write_byte, byteAt, byte_offset_eq h]

theorem write_byte_read_self {mem : Mem} {addr val : Nat}
    (hwf : memWF mem) (h : addr < 2 ^ 64) (hval : val < 256) :
    byteAt (write_byte mem addr val).2 addr = val := by
  simp only [write_byte, byteAt, byte_offset_eq h]
  simp only [eq_self_iff_true, if_true]
  exact getByte_setByte_self (Nat.mod_lt _ (by norm_num)) hval

theorem write_byte_read_other {mem : Mem} {addr val b : Nat}
    (hwf : memWF mem) (h : addr < 2 ^ 64) (hval : val < 256)
    (hb : b < 2 ^ 64) (hne : b ≠ addr) :
    byteAt (write_byte mem addr val).2 b = byteAt mem b := by
  simp only [write_byte, byteAt, byte_offset_eq h]
  by_cases hword : align_addr_to_word b = align_addr_to_word addr
  · have hoff : b % 8 ≠ addr % 8 := by
      intro heq
      apply hne
      have h1 := align_addr_to_word_eq h
      have h2 := align_addr_to_word_eq hb
      rw [h1, h2] at hword
      omega
    simp only [hword, if_pos rfl]
    exact getByte_setByte_ne (Nat.mod_lt _ (by norm_num))
      (Nat.mod_lt _ (by norm_num)) hoff hval
  · simp only [if_neg hword]

theorem write_byte_wf {mem : Mem} {addr val : Nat} (hwf : memWF mem)
    (h : addr < 2 ^ 64) (hval : val < 256) :
    memWF (write_byte mem addr val).2 := by
  intro a
  simp only [write_byte]
  by_cases ha : a = align_addr_to_word addr
  · simp only [if_pos ha]
    exact setByte_lt (hwf _) (by rw [byte_offset_eq h]; omega) hval
  · simp only [if_neg ha]
    exact hwf a

theorem write_byte_restore {mem : Mem} {addr val : Nat} (hwf : memWF mem)
    (h : addr < 2 ^ 64) (hval : val < 256) :
    ∀ a, (write_byte (write_byte mem addr val).2 addr
        ((write_byte mem addr val).1)).2 a = mem a := by
  intro a
  simp only [write_byte]
  by_cases ha : a = align_addr_to_word addr
  · simp only [if_pos ha, ha]
    exact setByte_restore (hwf _) (by rw [byte_offset_eq h]; omega) hval
  · simp only [if_neg ha]


/-! ### Breakpoint-table lemmas -/

theorem lookupBp_insertBp_self (t : BreakpointTable) (a : Nat) (bp : Breakpoint) :
    lookupBp (insertBp t a bp) a = some bp := by
  induction t with
  | nil => simp [insertBp, lookupBp]
  | cons p rest ih =>
    obtain ⟨a2, bp2⟩ := p
    by_cases h : a = a2
    · simp [insertBp, lookupBp, h]
    · simp [insertBp, lookupBp, h, ih]

theorem lookupBp_insertBp_ne (t : BreakpointTable) {a b : Nat} (bp : Breakpoint)
    (h : b ≠ a) : lookupBp (insertBp t a bp) b = lookupBp t b := by
  induction t with
  | nil => simp [insertBp, lookupBp, h]
  | cons p rest ih =>
    obtain ⟨a2, bp2⟩ := p
    by_cases h2 : a = a2
    · subst h2; simp [insertBp, lookupBp, h]
    · simp [insertBp, lookupBp, h2, ih]

theorem lookupBp_eq_none_iff (t : BreakpointTable) (b : Nat) :
    lookupBp t b = none ↔ b ∉ t.map Prod.fst := by
  induction t with
  | nil => simp [lookupBp]
  | cons p rest ih =>
    obtain ⟨a, bp⟩ := p
    by_cases h : b = a
    · simp [lookupBp, h]
    · simp [lookupBp, h, ih]

theorem lookupBp_some_mem_keys {t : BreakpointTable} {b : Nat} {bp : Breakpoint}
    (h : lookupBp t b = some bp) : b ∈ t.map Prod.fst := by
  by_contra hmem
  have := (lookupBp_eq_none_iff t b).2 hmem
  rw [h] at this
  cases this

theorem keys_bound {t : BreakpointTable} (hwf : tableWF t) {b : Nat}
    (h : b ∈ t.map Prod.fst) : b < 2 ^ 64 := by
  obtain ⟨p, hp, he⟩ := List.mem_map.1 h
  exact he ▸ hwf.2 p hp

theorem mem_keys_insertBp {t : BreakpointTable} {a b : Nat} {bp : Breakpoint} :
    b ∈ (insertBp t a bp).map Prod.fst ↔ b = a ∨ b ∈ t.map Prod.fst := by
  induction t with
  | nil => simp [insertBp]
  | cons p rest ih =>
    obtain ⟨a2, bp2⟩ := p
    by_cases h : a = a2
    · subst h; simp [insertBp]
    · simp [insertBp, h, ih]; tauto

theorem mem_insertBp {t : BreakpointTable} {a : Nat} {bp : Breakpoint}
    {p : Nat × Breakpoint} (hp : p ∈ insertBp t a bp) :
    p = (a, bp) ∨ p ∈ t := by
  induction t with
  | nil => simp [insertBp] at hp; tauto
  | cons q rest ih =>
    obtain ⟨a2, bp2⟩ := q
    by_cases h : a = a2
    · subst h
      simp only [insertBp, if_pos rfl] at hp
      rcases List.mem_cons.1 hp with h1 | h1
      · exact Or.inl h1
      · exact Or.inr (List.mem_cons_of_mem _ h1)
    · simp only [insertBp, if_neg h] at hp
      rcases List.mem_cons.1 hp with h1 | h1
      · exact Or.inr (h1 ▸ List.mem_cons_self _ _)
      · rcases ih h1 with h2 | h2
        · exact Or.inl h2
        · exact Or.inr (List.mem_cons_of_mem _ h2)

theorem insertBp_cons_eq (rest : BreakpointTable) (a : Nat)
    (bp2 bp : Breakpoint) :
    insertBp ((a, bp2) :: rest) a bp = (a, bp) :: rest := by
  simp [insertBp]

theorem insertBp_cons_ne (rest : BreakpointTable) {a a2 : Nat}
    (bp2 bp : Breakpoint) (h : a ≠ a2) :
    insertBp ((a2, bp2) :: rest) a bp = (a2, bp2) :: insertBp rest a bp := by
  simp [insertBp, h]

theorem nodup_keys_insertBp {t : BreakpointTable}
    (h : (t.map Prod.fst).Nodup) (a : Nat) (bp : Breakpoint) :
    ((insertBp t a bp).map Prod.fst).Nodup := by
  induction t with
  | nil => simp [insertBp]
  | cons p rest ih =>
    obtain ⟨a2, bp2⟩ := p
    rw [List.map_cons, List.nodup_cons] at h
    by_cases he : a = a2
    · subst he
      rw [insertBp_cons_eq, List.map_cons, List.nodup_cons]
      exact h
    · rw [insertBp_cons_ne rest bp2 bp he, List.map_cons, List.nodup_cons]
      refine ⟨?_, ih h.2⟩
      intro hc
      rcases mem_keys_insertBp.1 hc with h1 | h1
      · exact he (h1.symm)
      · exact h.1 h1

theorem tableWF_insertBp {t : BreakpointTable} (h : tableWF t) {a : Nat}
    (ha : a < 2 ^ 64) (bp : Breakpoint) : tableWF (insertBp t a bp) := by
  refine ⟨nodup_keys_insertBp h.1 a bp, ?_⟩
  intro p hp
  rcases mem_insertBp hp with h1 | h1
  · rw [h1]; exact ha
  · exact h.2 p h1

/-! ### Planting lemmas -/

theorem plantAll_keys (t : BreakpointTable) (mem : Mem) :
    (plantAll t mem).2.map Prod.fst = t.map Prod.fst := by
  induction t generalizing mem with
  | nil => rfl
  | cons p rest ih =>
    obtain ⟨a, bp⟩ := p
    simp [plantAll, ih]

theorem plantAll_wf {t : BreakpointTable} {mem : Mem} (hwf : memWF mem)
    (hb : ∀ p ∈ t, p.1 < 2 ^ 64) : memWF (plantAll t mem).1 := by
  induction t generalizing mem with
  | nil => exact hwf
  | cons p rest ih =>
    obtain ⟨a, bp⟩ := p
    have ha : a < 2 ^ 64 := hb (a, bp) (List.mem_cons_self _ _)
    simp only [plantAll]
    exact ih (write_byte_wf hwf ha (by norm_num))
      (fun q hq => hb q (List.mem_cons_of_mem _ hq))

theorem plantAll_lookup_none {t : BreakpointTable} {mem : Mem} (hwf : memWF mem)
    (hb : ∀ p ∈ t, p.1 < 2 ^ 64) {b : Nat} (hblt : b < 2 ^ 64)
    (h : lookupBp (plantAll t mem).2 b = none) :
    byteAt (plantAll t mem).1 b = byteAt mem b := by
  induction t generalizing mem with
  | nil => rfl
  | cons p rest ih =>
    obtain ⟨a, bp⟩ := p
    have ha : a < 2 ^ 64 := hb (a, bp) (List.mem_cons_self _ _)
    have hwf2 : memWF (write_byte mem a 0xcc).2 := write_byte_wf hwf ha (by norm_num)
    simp only [plantAll, lookupBp] at h ⊢
    by_cases hba : b = a
    · rw [if_pos hba] at h; cases h
    · rw [if_neg hba] at h
      rw [ih hwf2 (fun q hq => hb q (List.mem_cons_of_mem _ hq)) h]
      exact write_byte_read_other hwf ha (by norm_num) hblt hba

theorem plantAll_lookup_some {t : BreakpointTable} {mem : Mem} (hwf : memWF mem)
    (hnd : (t.map Prod.fst).Nodup) (hb : ∀ p ∈ t, p.1 < 2 ^ 64)
    {b : Nat} {bpr : Breakpoint} (hblt : b < 2 ^ 64)
    (h : lookupBp (plantAll t mem).2 b = some bpr) :
    byteAt (plantAll t mem).1 b = 0xcc ∧ bpr.orig_byte = byteAt mem b := by
  induction t generalizing mem with
  | nil => simp [plantAll, lookupBp] at h
  | cons p rest ih =>
    obtain ⟨a, bp⟩ := p
    have ha : a < 2 ^ 64 := hb (a, bp) (List.mem_cons_self _ _)
    have hwf2 : memWF (write_byte mem a 0xcc).2 := write_byte_wf hwf ha (by norm_num)
    have hbrest : ∀ q ∈ rest, q.1 < 2 ^ 64 := fun q hq => hb q (List.mem_cons_of_mem _ hq)
    rw [List.map_cons, List.nodup_cons] at hnd
    simp only [plantAll, lookupBp] at h ⊢
    by_cases hba : b = a
    · rw [if_pos hba] at h
      injection h with h2
      subst hba
      have hnone : lookupBp (plantAll rest (write_byte mem b 0xcc).2).2 b = none := by
        rw [lookupBp_eq_none_iff, plantAll_keys]
        exact hnd.1
      constructor
      · rw [plantAll_lookup_none hwf2 hbrest hblt hnone]
        exact write_byte_read_self hwf hblt (by norm_num)
      · rw [← h2]
        exact write_byte_fst hblt 0xcc
    · rw [if_neg hba] at h
      have hrec := ih hwf2 hnd.2 hbrest h
      rw [write_byte_read_other hwf ha (by norm_num) hblt hba] at hrec
      exact hrec

/-! ### Cache lemmas -/

theorem cacheGet_cacheInsert_self (c : LlmCache) (k : Text) (v : BreakpointSpec) :
    cacheGet (cacheInsert c k v) k = some v := by
  induction c with
  | nil => simp [cacheInsert, cacheGet]
  | cons p rest ih =>
    obtain ⟨k2, v2⟩ := p
    by_cases h : k = k2
    · simp [cacheInsert, cacheGet, h]
    · simp [cacheInsert, cacheGet, h, ih]


/-! ### Well-formedness of the concrete instances -/

theorem memA_wf : memWF memA := by
  intro a
  unfold memA
  split <;> norm_num

theorem memB_wf : memWF memB :=
  write_byte_wf memA_wf (by norm_num) (by norm_num)

theorem dbg0_inv : TrapInvariant dbg0 := by
  refine ⟨⟨List.nodup_nil, ?_⟩, ?_⟩
  · intro p hp; cases hp
  · intro inf h; cases h

/-! ### C3 — `write_byte` round trip -/

/-- C3: for every address `addr` (aligned or not) and byte `val`,
`write_byte` returns exactly the byte held at `addr` immediately before the
write, never modifies any byte other than the one at `addr`, and a
subsequent `write_byte addr a` with the returned byte restores the memory
(in particular the aligned machine word containing `addr`) bit-identically. -/
theorem write_byte_round_trip (mem : Mem) (addr val : Nat)
    (hwf : memWF mem) (haddr : addr < 2 ^ 64) (hval : val < 256) :
    (write_byte mem addr val).1 = byteAt mem addr ∧
    byteAt (write_byte mem addr val).2 addr = val ∧
    (∀ b, b < 2 ^ 64 → b ≠ addr →
      byteAt (write_byte mem addr val).2 b = byteAt mem b) ∧
    (∀ a, (write_byte (write_byte mem addr val).2 addr
        ((write_byte mem addr val).1)).2 a = mem a) :=
  ⟨write_byte_fst haddr val, write_byte_read_self hwf haddr hval,
   fun _ hb hbne => write_byte_read_other hwf haddr hval hb hbne,
   write_byte_restore hwf haddr hval⟩

/-- Witness for C3 on the concrete image `memA`, unaligned address `0x1003`,
value `0xAB`. -/
theorem write_byte_round_trip_witness :
    memWF memA ∧ (0x1003 : Nat) < 2 ^ 64 ∧ (0xAB : Nat) < 256 ∧
    ((write_byte memA 0x1003 0xAB).1 = byteAt memA 0x1003 ∧
     byteAt (write_byte memA 0x1003 0xAB).2 0x1003 = 0xAB ∧
     (∀ b, b < 2 ^ 64 → b ≠ 0x1003 →
       byteAt (write_byte memA 0x1003 0xAB).2 b = byteAt memA b) ∧
     (∀ a, (write_byte (write_byte memA 0x1003 0xAB).2 0x1003
         ((write_byte memA 0x1003 0xAB).1)).2 a = memA a)) :=
  ⟨memA_wf, by norm_num, by norm_num,
   write_byte_round_trip memA 0x1003 0xAB memA_wf (by norm_num) (by norm_num)⟩

/-! ### C10 — totality gap of `Inferior::wait` -/

/-- C10: `Inferior::wait` translates `Exited`, `Signaled` and `Stopped`
kernel wait results to the corresponding `Status` (attaching the `rip` read
from the registers on a stop), but panics on every other kernel wait status
(`PtraceEvent`, `PtraceSyscall`, `Continued`, `StillAlive`), so it is not
total over the possible kernel wait results. -/
theorem inferior_wait_totality_gap :
    (∀ pid code rip, Inferior.wait (.Exited pid code) rip = .ok (.Exited code)) ∧
    (∀ pid sig cd rip,
      Inferior.wait (.Signaled pid sig cd) rip = .ok (.Signaled sig)) ∧
    (∀ pid sig rip, Inferior.wait (.Stopped pid sig) rip = .ok (.Stopped sig rip)) ∧
    (∀ pid sig ev rip, Inferior.wait (.PtraceEvent pid sig ev) rip = .panic) ∧
    (∀ pid rip, Inferior.wait (.PtraceSyscall pid) rip = .panic) ∧
    (∀ pid rip, Inferior.wait (.Continued pid) rip = .panic) ∧
    (∀ rip, Inferior.wait .StillAlive rip = .panic) :=
  ⟨fun _ _ _ => rfl, fun _ _ _ _ => rfl, fun _ _ _ => rfl, fun _ _ _ _ => rfl,
   fun _ _ => rfl, fun _ _ => rfl, fun _ => rfl⟩

/-! ### C7 — spawn failure handling -/

/-- C7: contrary to the claim (and to `Inferior::new`'s own doc comment
"Returns Some(Inferior) if successful, or None if an error is
encountered"), a failed spawn does not produce `None`: the source unwraps
`cmd.args(args).spawn().ok()` and panics, aborting the process before
"Error starting subprocess" could be printed.  Only the initial-wait
failure path returns `None` as claimed. -/
theorem inferior_new_spawn_failure_panics :
    Inferior.new false memA [] (.Stopped .SIGTRAP 0x401000) = .panic ∧
    Inferior.new true memA [] (.Exited 1) = .ok none :=
  ⟨rfl, rfl⟩

/-! ### C2 — step-over-breakpoint sequence -/

/-- C2: a continue issued while stopped at `rip` with `rip - 1` a table key
restores `orig_byte` at `bp_addr = rip - 1`, rewinds `rip` to `bp_addr`,
single-steps from that state (the step therefore executes the original
byte), and on the expected `SIGTRAP` stop re-arms `0xCC` at `bp_addr`
before issuing the continue; after the continue makes further progress and
stops, the byte at `bp_addr` is still `0xCC`. -/
theorem continue_step_over (dbg : Debugger) (inf : InfState) (bp : Breakpoint)
    (sig : Signal) (r1 r2 : Nat)
    (hinf : dbg.inferior = some inf)
    (hwf : memWF inf.mem)
    (hbp : lookupBp dbg.break_point (inf.regs.rip - 1) = some bp)
    (horig : bp.orig_byte < 256)
    (haddr : inf.regs.rip - 1 < 2 ^ 64) :
    ∃ m1 m2 inf',
      continueCmd dbg (.Stopped .SIGTRAP r1) (.Stopped sig r2) =
        ({ inferior := some inf', break_point := dbg.break_point },
         [TraceCall.stepCall m1 (inf.regs.rip - 1), TraceCall.contCall m2 r1]) ∧
      byteAt m1 (inf.regs.rip - 1) = bp.orig_byte ∧
      byteAt m2 (inf.regs.rip - 1) = 0xcc ∧
      inf'.mem = m2 ∧ inf'.regs.rip = r2 ∧
      byteAt inf'.mem (inf.regs.rip - 1) = 0xcc := by
  obtain ⟨i, t⟩ := dbg
  simp only at hinf hbp
  subst hinf
  refine ⟨(write_byte inf.mem (inf.regs.rip - 1) bp.orig_byte).2,
    (write_byte (write_byte inf.mem (inf.regs.rip - 1) bp.orig_byte).2
      (inf.regs.rip - 1) 0xcc).2,
    { inf with
        mem := (write_byte (write_byte inf.mem (inf.regs.rip - 1) bp.orig_byte).2
          (inf.regs.rip - 1) 0xcc).2,
        regs := { inf.regs with rip := r2 } }, ?_, ?_, ?_, rfl, rfl, ?_⟩
  · simp only [continueCmd, doContinue]
    rw [hbp]
  · exact write_byte_read_self hwf haddr horig
  · exact write_byte_read_self (write_byte_wf hwf haddr horig) haddr (by norm_num)
  · exact write_byte_read_self (write_byte_wf hwf haddr horig) haddr (by norm_num)

/-- Witness for C2: the concrete session `dbgB`, stopped at `0x1001` with
the breakpoint at `0x1000`. -/
theorem continue_step_over_witness :
    dbgB.inferior = some infB ∧ memWF infB.mem ∧
    lookupBp dbgB.break_point (infB.regs.rip - 1) =
      some { addr := 0x1000, orig_byte := 0x55 } ∧
    (0x55 : Nat) < 256 ∧ infB.regs.rip - 1 < 2 ^ 64 ∧
    (∃ m1 m2 inf',
      continueCmd dbgB (.Stopped .SIGTRAP 0x1005) (.Stopped .SIGTRAP 0x2000) =
        ({ inferior := some inf', break_point := dbgB.break_point },
         [TraceCall.stepCall m1 (infB.regs.rip - 1),
          TraceCall.contCall m2 0x1005]) ∧
      byteAt m1 (infB.regs.rip - 1) = (0x55 : Nat) ∧
      byteAt m2 (infB.regs.rip - 1) = 0xcc ∧
      inf'.mem = m2 ∧ inf'.regs.rip = 0x2000 ∧
      byteAt inf'.mem (infB.regs.rip - 1) = 0xcc) :=
  ⟨rfl, memB_wf, by decide, by norm_num, by decide,
   continue_step_over dbgB infB { addr := 0x1000, orig_byte := 0x55 }
     .SIGTRAP 0x1005 0x2000 rfl memB_wf (by decide) (by norm_num) (by decide)⟩

/-! ### Invariant preservation -/

theorem byteAt_lt (mem : Mem) (addr : Nat) : byteAt mem addr < 256 :=
  getByte_lt _ _

theorem inv_drop {t : BreakpointTable} {i : Option InfState}
    (hinv : TrapInvariant { inferior := i, break_point := t }) :
    TrapInvariant { inferior := none, break_point := t } :=
  ⟨hinv.1, fun _ h => by cases h⟩

theorem inv_mem_eq {t : BreakpointTable} {inf : InfState}
    (hinv : TrapInvariant { inferior := some inf, break_point := t })
    {mem2 : Mem} (hwf2 : memWF mem2)
    (heq : ∀ b, b < 2 ^ 64 → byteAt mem2 b = byteAt inf.mem b) (r : Regs) :
    TrapInvariant { inferior := some { inf with mem := mem2, regs := r },
                    break_point := t } := by
  obtain ⟨hinv1, hinv2⟩ := hinv
  refine ⟨hinv1, ?_⟩
  intro inf2 h
  injection h with h
  subst h
  obtain ⟨_, hpwf, hsome, hnone⟩ := hinv2 inf rfl
  refine ⟨hwf2, hpwf, ?_, ?_⟩
  · intro b bp hb hl
    obtain ⟨h1, h2⟩ := hsome b bp hb hl
    exact ⟨(heq b hb).trans h1, h2⟩
  · intro b hb hl
    exact (heq b hb).trans (hnone b hb hl)

theorem inv_regs_update {t : BreakpointTable} {inf : InfState}
    (hinv : TrapInvariant { inferior := some inf, break_point := t })
    (r : Regs) :
    TrapInvariant { inferior := some { inf with regs := r },
                    break_point := t } :=
  inv_mem_eq hinv (hinv.2 inf rfl).1 (fun _ _ => rfl) r

theorem inv_step_over_rearm {t : BreakpointTable} {inf : InfState}
    {bp : Breakpoint}
    (hinv : TrapInvariant { inferior := some inf, break_point := t })
    (hbp : lookupBp t (inf.regs.rip - 1) = some bp) (r : Regs) :
    TrapInvariant
      { inferior := some
          ({ inf with
              mem := (write_byte
                (write_byte inf.mem (inf.regs.rip - 1) bp.orig_byte).2
                (inf.regs.rip - 1) 0xcc).2,
              regs := r }),
        break_point := t } := by
  obtain ⟨hwf, hpwf, hsome, hnone⟩ := hinv.2 inf rfl
  have haddr : inf.regs.rip - 1 < 2 ^ 64 :=
    keys_bound hinv.1 (lookupBp_some_mem_keys hbp)
  have horig : bp.orig_byte < 256 := by
    rw [(hsome _ bp haddr hbp).2]
    exact byteAt_lt _ _
  have hwf1 : memWF (write_byte inf.mem (inf.regs.rip - 1) bp.orig_byte).2 :=
    write_byte_wf hwf haddr horig
  refine inv_mem_eq hinv (write_byte_wf hwf1 haddr (by norm_num)) ?_ r
  intro b hb
  by_cases hba : b = inf.regs.rip - 1
  · subst hba
    rw [write_byte_read_self hwf1 hb (by norm_num)]
    exact ((hsome _ bp hb hbp).1).symm
  · rw [write_byte_read_other hwf1 haddr (by norm_num) hb hba]
    exact write_byte_read_other hwf haddr horig hb hba

theorem doContinue_inv {dbg : Debugger} (hinv : TrapInvariant dbg)
    (ev : Status) : TrapInvariant (doContinue dbg ev).1 := by
  obtain ⟨i, t⟩ := dbg
  cases i with
  | none => exact hinv
  | some inf =>
    cases ev with
    | Exited c => exact inv_drop hinv
    | Signaled s => exact inv_drop hinv
    | Stopped s r => exact inv_regs_update hinv _

theorem continueCmd_inv {dbg : Debugger} (hinv : TrapInvariant dbg)
    {stepEv : Status} (hben : benignStatus stepEv) (contEv : Status) :
    TrapInvariant (continueCmd dbg stepEv contEv).1 := by
  obtain ⟨i, t⟩ := dbg
  cases i with
  | none => exact hinv
  | some inf =>
    cases hbp : lookupBp t (inf.regs.rip - 1) with
    | none =>
      have heq : continueCmd ⟨some inf, t⟩ stepEv contEv =
          doContinue ⟨some inf, t⟩ contEv := by
        simp only [continueCmd]
        rw [hbp]
      rw [heq]
      exact doContinue_inv hinv contEv
    | some bp =>
      cases stepEv with
      | Exited c =>
        have heq : (continueCmd ⟨some inf, t⟩ (.Exited c) contEv).1 =
            ({ inferior := none, break_point := t } : Debugger) := by
          simp only [continueCmd]
          rw [hbp]
        rw [heq]
        exact inv_drop hinv
      | Signaled s =>
        have heq : (continueCmd ⟨some inf, t⟩ (.Signaled s) contEv).1 =
            ({ inferior := none, break_point := t } : Debugger) := by
          simp only [continueCmd]
          rw [hbp]
        rw [heq]
        exact inv_drop hinv
      | Stopped sig r =>
        have hsig : sig = Signal.SIGTRAP := hben
        subst hsig
        have heq : (continueCmd ⟨some inf, t⟩ (.Stopped .SIGTRAP r) contEv).1 =
            (doContinue
              ⟨some
                ({ inf with
                    mem := (write_byte
                      (write_byte inf.mem (inf.regs.rip - 1) bp.orig_byte).2
                      (inf.regs.rip - 1) 0xcc).2,
                    regs := { inf.regs with rip := r } }),
                t⟩ contEv).1 := by
          simp only [continueCmd]
          rw [hbp]
        rw [heq]
        exact doContinue_inv (inv_step_over_rearm hinv hbp _) contEv

theorem nextLoop_inv (lineOf : Nat → Option Nat) {t : BreakpointTable}
    (cur : Option Nat) :
    ∀ (evs : List Status) (inf : InfState),
      (∀ ev ∈ evs, benignStatus ev) →
      TrapInvariant { inferior := some inf, break_point := t } →
      TrapInvariant { inferior := (nextLoop lineOf t cur inf evs).1,
                      break_point := t } := by
  intro evs
  induction evs with
  | nil => intro inf _ hinv; exact hinv
  | cons ev evs ih =>
    intro inf hben hinv
    have hbe : benignStatus ev := hben ev (List.mem_cons_self _ _)
    have hbrest : ∀ e ∈ evs, benignStatus e :=
      fun e he => hben e (List.mem_cons_of_mem _ he)
    cases hbp : lookupBp t (inf.regs.rip - 1) with
    | some bp =>
      cases ev with
      | Stopped sig r =>
        have hsig : sig = Signal.SIGTRAP := hbe
        subst hsig
        have heq : (nextLoop lineOf t cur inf (.Stopped .SIGTRAP r :: evs)).1 =
            (nextLoop lineOf t cur
              ({ inf with
                  mem := (write_byte
                    (write_byte inf.mem (inf.regs.rip - 1) bp.orig_byte).2
                    (inf.regs.rip - 1) 0xcc).2,
                  regs := { inf.regs with rip := r } }) evs).1 := by
          simp only [nextLoop]
          rw [hbp]
        rw [heq]
        exact ih _ hbrest (inv_step_over_rearm hinv hbp _)
      | Exited c =>
        have heq : (nextLoop lineOf t cur inf (.Exited c :: evs)).1 = none := by
          simp only [nextLoop]
          rw [hbp]
        rw [heq]
        exact inv_drop hinv
      | Signaled s =>
        have heq : (nextLoop lineOf t cur inf (.Signaled s :: evs)).1 = none := by
          simp only [nextLoop]
          rw [hbp]
        rw [heq]
        exact inv_drop hinv
    | none =>
      cases ev with
      | Stopped sig r =>
        have heq : nextLoop lineOf t cur inf (.Stopped sig r :: evs) =
            (if lineOf r ≠ cur ∧ (lineOf r).isSome
             then (some { inf with regs := { inf.regs with rip := r } },
                   NextOutcome.reportNormal r)
             else nextLoop lineOf t cur
               { inf with regs := { inf.regs with rip := r } } evs) := by
          simp only [nextLoop]
          rw [hbp]
        rw [heq]
        split
        · exact inv_regs_update hinv _
        · exact ih _ hbrest (inv_regs_update hinv _)
      | Exited c =>
        have heq : (nextLoop lineOf t cur inf (.Exited c :: evs)).1 = none := by
          simp only [nextLoop]
          rw [hbp]
        rw [heq]
        exact inv_drop hinv
      | Signaled s =>
        have heq : (nextLoop lineOf t cur inf (.Signaled s :: evs)).1 = none := by
          simp only [nextLoop]
          rw [hbp]
        rw [heq]
        exact inv_drop hinv

theorem nextCmd_inv {lineOf : Nat → Option Nat} {dbg : Debugger}
    (hinv : TrapInvariant dbg) {evs : List Status}
    (hben : ∀ ev ∈ evs, benignStatus ev) :
    TrapInvariant (nextCmd lineOf dbg evs).1 := by
  obtain ⟨i, t⟩ := dbg
  cases i with
  | none => exact hinv
  | some inf => exact nextLoop_inv lineOf _ evs inf hben hinv

theorem breakCmd_inv {dbg : Debugger} (hinv : TrapInvariant dbg)
    {addrOpt : Option Nat} (hok : cmdOK dbg (.breakC addrOpt)) :
    TrapInvariant (breakCmd dbg addrOpt) := by
  obtain ⟨i, t⟩ := dbg
  cases addrOpt with
  | none => exact hinv
  | some addr =>
    obtain ⟨ha, hfresh⟩ := hok
    cases i with
    | none =>
      refine ⟨tableWF_insertBp hinv.1 ha _, ?_⟩
      intro inf h
      cases h
    | some inf =>
      have hfresh2 : lookupBp t addr = none := hfresh rfl
      obtain ⟨hwf, hpwf, hsome, hnone⟩ := hinv.2 inf rfl
      show TrapInvariant
        { inferior := some ({ inf with mem := (write_byte inf.mem addr 0xcc).2 }),
          break_point :=
            insertBp (insertBp t addr { addr := addr, orig_byte := 0 }) addr
              { addr := addr, orig_byte := (write_byte inf.mem addr 0xcc).1 } }
      refine ⟨tableWF_insertBp (tableWF_insertBp hinv.1 ha _) ha _, ?_⟩
      intro inf2 h
      injection h with h
      subst h
      refine ⟨write_byte_wf hwf ha (by norm_num), hpwf, ?_, ?_⟩
      · intro b bp hb hl
        dsimp only at hl ⊢
        by_cases hba : b = addr
        · subst hba
          rw [lookupBp_insertBp_self] at hl
          injection hl with hl
          subst hl
          refine ⟨write_byte_read_self hwf hb (by norm_num), ?_⟩
          rw [write_byte_fst hb 0xcc]
          exact hnone b hb hfresh2
        · rw [lookupBp_insertBp_ne _ _ hba, lookupBp_insertBp_ne _ _ hba] at hl
          obtain ⟨h1, h2⟩ := hsome b bp hb hl
          exact ⟨(write_byte_read_other hwf ha (by norm_num) hb hba).trans h1, h2⟩
      · intro b hb hl
        dsimp only at hl ⊢
        by_cases hba : b = addr
        · subst hba
          rw [lookupBp_insertBp_self] at hl
          cases hl
        · rw [lookupBp_insertBp_ne _ _ hba, lookupBp_insertBp_ne _ _ hba] at hl
          rw [write_byte_read_other hwf ha (by norm_num) hb hba]
          exact hnone b hb hl

theorem runCmd_inv {dbg : Debugger} (hinv : TrapInvariant dbg)
    {progMem : Mem} (hwfp : memWF progMem) (spawnEv contEv : Status)
    {r : Debugger × List TraceCall}
    (h : runCmd dbg true progMem spawnEv contEv = .ok r) :
    TrapInvariant r.1 := by
  obtain ⟨i, t⟩ := dbg
  have hplant : TrapInvariant
      { inferior := some
          ({ mem := (plantAll t progMem).1,
             regs := { rip := 0, rbp := 0 },
             progMem := progMem }),
        break_point := (plantAll t progMem).2 } := by
    refine ⟨⟨?_, ?_⟩, ?_⟩
    · rw [plantAll_keys]
      exact hinv.1.1
    · intro p hp
      have hm : p.1 ∈ (plantAll t progMem).2.map Prod.fst :=
        List.mem_map_of_mem _ hp
      rw [plantAll_keys] at hm
      exact keys_bound hinv.1 hm
    · intro inf2 h2
      injection h2 with h2
      subst h2
      refine ⟨plantAll_wf hwfp hinv.1.2, hwfp, ?_, ?_⟩
      · intro b bp hb hl
        exact plantAll_lookup_some hwfp hinv.1.1 hinv.1.2 hb hl
      · intro b hb hl
        exact plantAll_lookup_none hwfp hinv.1.2 hb hl
  cases spawnEv with
  | Stopped sig rip =>
    cases sig with
    | SIGTRAP =>
      simp only [runCmd, Inferior.new] at h
      injection h with h
      subst h
      apply doContinue_inv _ contEv
      exact inv_regs_update hplant { rip := rip, rbp := 0 }
    | otherSig n =>
      simp only [runCmd, Inferior.new] at h
      injection h with h
      subst h
      exact ⟨hinv.1, fun _ h2 => by cases h2⟩
  | Exited c =>
    simp only [runCmd, Inferior.new] at h
    injection h with h
    subst h
    exact ⟨hinv.1, fun _ h2 => by cases h2⟩
  | Signaled s =>
    simp only [runCmd, Inferior.new] at h
    injection h with h
    subst h
    exact ⟨hinv.1, fun _ h2 => by cases h2⟩

/-! ### C1 — trap coherence -/

/-- C1 (amended): at every REPL prompt, for every breakpoint planted in
the live inferior, the byte at its address in inferior memory is `0xCC`
and `orig_byte` is the program-image byte the trap displaced; `continue`,
`next`, `break` and `run` preserve this — provided every single-step the
controller issues stops with the expected `SIGTRAP` (or reports
exit/termination), and no `break` is issued at an address already planted
in the live inferior.  (The counterexample shows both provisos are
necessary.) -/
theorem trap_coherence_preserved (lineOf : Nat → Option Nat) (cmd : Command)
    (dbg dbg2 : Debugger) (hinv : TrapInvariant dbg) (hben : benignCmd cmd)
    (hok : cmdOK dbg cmd) (hexec : execCmd lineOf dbg cmd = .ok dbg2) :
    TrapInvariant dbg2 := by
  cases cmd with
  | runC spawnOk progMem spawnEv contEv =>
    cases spawnOk with
    | false => simp [execCmd, runCmd, Inferior.new] at hexec
    | true =>
      simp only [execCmd] at hexec
      cases hr : runCmd dbg true progMem spawnEv contEv with
      | panic => rw [hr] at hexec; cases hexec
      | ok r =>
        rw [hr] at hexec
        injection hexec with h
        subst h
        exact runCmd_inv hinv hok spawnEv contEv hr
  | continueC stepEv contEv =>
    simp only [execCmd] at hexec
    injection hexec with h
    subst h
    exact continueCmd_inv hinv hben contEv
  | nextC evs =>
    simp only [execCmd] at hexec
    injection hexec with h
    subst h
    exact nextCmd_inv hinv hben
  | breakC addrOpt =>
    simp only [execCmd] at hexec
    injection hexec with h
    subst h
    exact breakCmd_inv hinv hok

/-- Witness for C1: a `break 0x1000` issued in the Idle session preserves
the invariant. -/
theorem trap_coherence_preserved_witness :
    TrapInvariant dbg0 ∧ benignCmd (.breakC (some 0x1000)) ∧
    cmdOK dbg0 (.breakC (some 0x1000)) ∧
    execCmd lineOfC dbg0 (.breakC (some 0x1000)) =
      .ok (breakCmd dbg0 (some 0x1000)) ∧
    TrapInvariant (breakCmd dbg0 (some 0x1000)) :=
  ⟨dbg0_inv, trivial, ⟨by norm_num, fun _ => rfl⟩, rfl,
   trap_coherence_preserved lineOfC (.breakC (some 0x1000)) dbg0
     (breakCmd dbg0 (some 0x1000)) dbg0_inv trivial
     ⟨by norm_num, fun _ => rfl⟩ rfl⟩

/-- C1 is violated as the claim states it, on two concrete runs.
First: after `break 0x1000`, `run` (stopping at the breakpoint) and a
second `break 0x1000` into the live inferior, the session is back at the
prompt with the breakpoint planted but `orig_byte = 0xCC` — the trap
opcode itself, not the displaced program byte `0x55` (`byteAt memA 0x1000`),
which is lost.  Second: a `continue` from the stopped-at-our-trap session
`dbgB` whose step-over single-step stops with a non-`SIGTRAP` signal
returns to the prompt with the inferior live and the byte at the planted
breakpoint's address equal to `0x55`, not `0xCC` (the trap was never
re-armed). -/
theorem trap_coherence_counterexample :
    ((execCmds lineOfC dbg0 cmds1).toOption.map (fun d =>
        (d.inferior.isSome,
         (lookupBp d.break_point 0x1000).map Breakpoint.orig_byte)))
      = some (true, some 0xcc) ∧
    byteAt memA 0x1000 = 0x55 ∧
    ((continueCmd dbgB (.Stopped (.otherSig 11) 0x1008)
        (.Stopped (.otherSig 11) 0x2000)).1.inferior.map
      (fun inf => byteAt inf.mem 0x1000)) = some 0x55 := by
  refine ⟨?_, ?_, ?_⟩ <;> decide

/-! ### C4 — `next` advances the source line -/

theorem nextLoop_reportNormal (lineOf : Nat → Option Nat)
    (t : BreakpointTable) (cur : Option Nat) :
    ∀ (evs : List Status) (inf : InfState) (oinf : Option InfState) (r : Nat),
      nextLoop lineOf t cur inf evs = (oinf, .reportNormal r) →
      lineOf r ≠ cur ∧ (lineOf r).isSome = true := by
  intro evs
  induction evs with
  | nil =>
    intro inf oinf r h
    simp [nextLoop] at h
  | cons ev evs ih =>
    intro inf oinf r h
    cases hbp : lookupBp t (inf.regs.rip - 1) with
    | some bp =>
      cases ev with
      | Stopped sig r2 =>
        cases sig with
        | SIGTRAP =>
          simp only [nextLoop] at h
          rw [hbp] at h
          exact ih _ _ _ h
        | otherSig n =>
          simp only [nextLoop] at h
          rw [hbp] at h
          simp at h
      | Exited c =>
        simp only [nextLoop] at h
        rw [hbp] at h
        simp at h
      | Signaled s =>
        simp only [nextLoop] at h
        rw [hbp] at h
        simp at h
    | none =>
      cases ev with
      | Stopped sig r2 =>
        simp only [nextLoop] at h
        rw [hbp] at h
        by_cases hc : lineOf r2 ≠ cur ∧ (lineOf r2).isSome
        · rw [if_pos hc] at h
          injection h with h1 h2
          injection h2 with h2
          subst h2
          exact ⟨hc.1, hc.2⟩
        · rw [if_neg hc] at h
          exact ih _ _ _ h
      | Exited c =>
        simp only [nextLoop] at h
        rw [hbp] at h
        simp at h
      | Signaled s =>
        simp only [nextLoop] at h
        rw [hbp] at h
        simp at h

/-- C4 (amended): whenever a `next` command terminates by emitting the stop
report from the plain single-step branch (outcome `reportNormal r`), the
line at the stopped `r` is `Some` and differs from the line that held at
entry to `next` (covering the case where the entry position had no line and
the stop position has one).  The breakpoint-branch termination on a
non-`SIGTRAP` stop reports without any line check — see the
counterexample. -/
theorem next_advances_line (lineOf : Nat → Option Nat) (dbg : Debugger)
    (inf : InfState) (evs : List Status) (r : Nat)
    (hinf : dbg.inferior = some inf)
    (h : (nextCmd lineOf dbg evs).2 = .reportNormal r) :
    lineOf r ≠ lineOf inf.regs.rip ∧ (lineOf r).isSome = true := by
  obtain ⟨i, t⟩ := dbg
  simp only at hinf
  subst hinf
  simp only [nextCmd] at h
  have hp : nextLoop lineOf t (lineOf inf.regs.rip) inf evs =
      ((nextLoop lineOf t (lineOf inf.regs.rip) inf evs).1,
       .reportNormal r) := by
    rw [← h]
  exact nextLoop_reportNormal lineOf t _ evs inf _ r hp

/-- Witness for C4 on the concrete session `dbgC` (stopped on line 5): a
single step lands at `0x2000` on line 7. -/
theorem next_advances_line_witness :
    dbgC.inferior = some infC ∧
    (nextCmd lineOfC dbgC [.Stopped .SIGTRAP 0x2000]).2 =
      .reportNormal 0x2000 ∧
    (lineOfC 0x2000 ≠ lineOfC infC.regs.rip ∧
     (lineOfC 0x2000).isSome = true) :=
  ⟨rfl, by decide,
   next_advances_line lineOfC dbgC infC [.Stopped .SIGTRAP 0x2000] 0x2000
     rfl (by decide)⟩

/-- C4 is violated as stated: in `dbgB` (stopped at the planted breakpoint
on line 5 of `lineOfD`), a `next` whose over-step single-step stops with a
non-`SIGTRAP` signal at `0x2000` completes with the inferior alive and the
stop report emitted at `0x2000` — whose line (5) equals the entry line, and
the entry line was not absent. -/
theorem next_advances_line_counterexample :
    (nextCmd lineOfD dbgB [.Stopped (.otherSig 11) 0x2000]).2 =
      .reportBpOtherSignal 0x2000 ∧
    (nextCmd lineOfD dbgB
        [.Stopped (.otherSig 11) 0x2000]).1.inferior.isSome = true ∧
    lineOfD 0x2000 = lineOfD 0x1001 ∧ lineOfD 0x2000 = some 5 := by
  refine ⟨?_, ?_, ?_, ?_⟩ <;> decide

/-! ### C5 — `next` over a planted breakpoint -/

/-- C5 (amended): within the `next` loop, when the current stop is at a
planted breakpoint and the over-step single-step stops with the expected
`SIGTRAP`, the controller re-arms the trap and always continues the loop —
it performs no line comparison and never emits the stop report at that
point, whatever line the step reached.  (The claimed emit-and-terminate on
reaching a different line does not happen; see the counterexample.) -/
theorem next_over_bp_continues (lineOf : Nat → Option Nat)
    (t : BreakpointTable) (cur : Option Nat) (inf : InfState)
    (bp : Breakpoint) (evs : List Status) (r : Nat)
    (hbp : lookupBp t (inf.regs.rip - 1) = some bp) :
    nextLoop lineOf t cur inf (Status.Stopped .SIGTRAP r :: evs) =
      nextLoop lineOf t cur
        ({ inf with
            mem := (write_byte
              (write_byte inf.mem (inf.regs.rip - 1) bp.orig_byte).2
              (inf.regs.rip - 1) 0xcc).2,
            regs := { inf.regs with rip := r } }) evs := by
  simp only [nextLoop]
  rw [hbp]

/-- Witness for C5 on the concrete session `dbgB`. -/
theorem next_over_bp_continues_witness :
    lookupBp dbgB.break_point (infB.regs.rip - 1) =
      some { addr := 0x1000, orig_byte := 0x55 } ∧
    nextLoop lineOfE dbgB.break_point (some 5) infB
        [Status.Stopped .SIGTRAP 0x2000] =
      nextLoop lineOfE dbgB.break_point (some 5)
        ({ infB with
            mem := (write_byte
              (write_byte infB.mem (infB.regs.rip - 1) (0x55 : Nat)).2
              (infB.regs.rip - 1) 0xcc).2,
            regs := { infB.regs with rip := 0x2000 } }) [] :=
  ⟨by decide,
   next_over_bp_continues lineOfE dbgB.break_point (some 5) infB
     { addr := 0x1000, orig_byte := 0x55 } [] 0x2000 (by decide)⟩

/-- C5 is violated as stated: in `dbgB` under `lineOfE` (entry line 5), the
over-step single-step stops with `SIGTRAP` at `0x2000`, which lies on a
*different* line (7) — yet the loop does not emit the stop report and
terminate there: it keeps stepping, consumes the next event and reports at
`0x3000` instead. -/
theorem next_over_bp_counterexample :
    (nextCmd lineOfE dbgB
        [.Stopped .SIGTRAP 0x2000, .Stopped .SIGTRAP 0x3000]).2 =
      .reportNormal 0x3000 ∧
    lineOfE 0x2000 ≠ lineOfE 0x1001 ∧ (lineOfE 0x2000).isSome = true ∧
    (0x3000 : Nat) ≠ 0x2000 := by
  refine ⟨?_, ?_, ?_, ?_⟩ <;> decide

/-! ### C6 — `run` from Idle -/

/-- C6 is violated as stated: `run` from Idle with a successful spawn and
the initial trace-trap delivered does not leave the controller Stopped —
the Run arm immediately issues a `continue_run`, and when the child then
exits the session is Idle again (`inferior = none`). -/
theorem run_idle_counterexample :
    execCmd lineOfC dbg0
        (.runC true memA (.Stopped .SIGTRAP 0x401000) (.Exited 0)) =
      .ok { inferior := none, break_point := [] } := rfl

/-- C6 (amended): `run` spawns, plants every table entry, waits for the
initial trace-trap, and then immediately continues; when that continue
reports a stop, the controller is Stopped at the reported `rip`, with the
table's entries unchanged as a key set and every entry planted (`0xCC` in
memory, `orig_byte` the displaced image byte). -/
theorem run_from_idle (dbg : Debugger) (progMem : Mem) (r1 r2 : Nat)
    (sig : Signal) (hidle : dbg.inferior = none)
    (hinv : TrapInvariant dbg) (hwfp : memWF progMem) :
    ∃ d log,
      runCmd dbg true progMem (.Stopped .SIGTRAP r1) (.Stopped sig r2) =
        .ok (d, log) ∧
      d.break_point.map Prod.fst = dbg.break_point.map Prod.fst ∧
      ∃ inf2, d.inferior = some inf2 ∧ inf2.regs.rip = r2 ∧
        ∀ b bp, b < 2 ^ 64 → lookupBp d.break_point b = some bp →
          byteAt inf2.mem b = 0xcc ∧ bp.orig_byte = byteAt progMem b := by
  obtain ⟨i, t⟩ := dbg
  refine ⟨_, _, rfl, ?_, ?_⟩
  · exact plantAll_keys t progMem
  · refine ⟨_, rfl, rfl, ?_⟩
    intro b bp hb hl
    dsimp only at hl
    exact plantAll_lookup_some hwfp hinv.1.1 hinv.1.2 hb hl

/-- Witness for C6 (amended) on the Idle session and the image `memA`. -/
theorem run_from_idle_witness :
    dbg0.inferior = none ∧ TrapInvariant dbg0 ∧ memWF memA ∧
    (∃ d log,
      runCmd dbg0 true memA (.Stopped .SIGTRAP 0x401000)
          (.Stopped .SIGTRAP 0x1001) = .ok (d, log) ∧
      d.break_point.map Prod.fst = dbg0.break_point.map Prod.fst ∧
      ∃ inf2, d.inferior = some inf2 ∧ inf2.regs.rip = 0x1001 ∧
        ∀ b bp, b < 2 ^ 64 → lookupBp d.break_point b = some bp →
          byteAt inf2.mem b = 0xcc ∧ bp.orig_byte = byteAt memA b) :=
  ⟨rfl, dbg0_inv, memA_wf,
   run_from_idle dbg0 memA 0x401000 0x1001 .SIGTRAP rfl dbg0_inv memA_wf⟩

/-! ### C8 — print-variable evaluation -/

/-- C8: for a print with a live inferior, an absent DWARF lookup yields only
the not-in-scope report; otherwise the effective address is the location's
absolute address, or `(rbp + 16 + k) as usize` (signed addition) for a
frame-base offset `k`, and the printed value is the machine word read at
that address taken modulo `2 ^ (8·size)` (zero-extension) when the declared
size is 1, 2 or 4 bytes, and the full 8-byte word for any other size. -/
theorem print_variable_semantics (rbp : Int) (readWord : Nat → Nat)
    (loc : Location) :
    printCmd true none rbp readWord = .notInScope ∧
    (∀ sz, sz = 1 ∨ sz = 2 ∨ sz = 4 →
      printCmd true (some { location := loc, size := sz }) rbp readWord =
        .printed (readWord (effective_addr loc rbp) % 2 ^ (8 * sz))) ∧
    (∀ sz, ¬(sz = 1 ∨ sz = 2 ∨ sz = 4) →
      printCmd true (some { location := loc, size := sz }) rbp readWord =
        .printed (readWord (effective_addr loc rbp))) := by
  have h1 : ∀ v : Nat, v &&& 0xff = v % 2 ^ (8 * 1) := by
    intro v
    rw [show (0xff : Nat) = 2 ^ 8 - 1 from by norm_num,
      Nat.and_pow_two_sub_one_eq_mod]
  have h2 : ∀ v : Nat, v &&& 0xffff = v % 2 ^ (8 * 2) := by
    intro v
    rw [show (0xffff : Nat) = 2 ^ 16 - 1 from by norm_num,
      Nat.and_pow_two_sub_one_eq_mod]
  have h4 : ∀ v : Nat, v &&& 0xffffffff = v % 2 ^ (8 * 4) := by
    intro v
    rw [show (0xffffffff : Nat) = 2 ^ 32 - 1 from by norm_num,
      Nat.and_pow_two_sub_one_eq_mod]
  refine ⟨rfl, ?_, ?_⟩
  · intro sz hsz
    cases loc with
    | Address a =>
      rcases hsz with rfl | rfl | rfl
      · exact congrArg PrintResult.printed (h1 (readWord a))
      · exact congrArg PrintResult.printed (h2 (readWord a))
      · exact congrArg PrintResult.printed (h4 (readWord a))
    | FramePointerOffset k =>
      rcases hsz with rfl | rfl | rfl
      · exact congrArg PrintResult.printed (h1 (readWord (toUsize (rbp + 16 + k))))
      · exact congrArg PrintResult.printed (h2 (readWord (toUsize (rbp + 16 + k))))
      · exact congrArg PrintResult.printed (h4 (readWord (toUsize (rbp + 16 + k))))
  · intro sz hsz
    cases loc with
    | Address a =>
      rcases sz with _ | _ | _ | _ | _ | m
      · rfl
      · exact absurd (Or.inl rfl) hsz
      · exact absurd (Or.inr (Or.inl rfl)) hsz
      · rfl
      · exact absurd (Or.inr (Or.inr rfl)) hsz
      · rfl
    | FramePointerOffset k =>
      rcases sz with _ | _ | _ | _ | _ | m
      · rfl
      · exact absurd (Or.inl rfl) hsz
      · exact absurd (Or.inr (Or.inl rfl)) hsz
      · rfl
      · exact absurd (Or.inr (Or.inr rfl)) hsz
      · rfl

/-- Witness for C8: a 4-byte variable at frame-base offset `-8` with
`rbp = 1000`. -/
theorem print_variable_semantics_witness :
    ((4 : Nat) = 1 ∨ (4 : Nat) = 2 ∨ (4 : Nat) = 4) ∧
    printCmd true
        (some { location := Location.FramePointerOffset (-8), size := 4 })
        1000 (fun _ => 0x1122334455667788) =
      .printed ((fun _ => (0x1122334455667788 : Nat))
        (effective_addr (Location.FramePointerOffset (-8)) 1000) % 2 ^ (8 * 4)) :=
  ⟨Or.inr (Or.inr rfl),
   (print_variable_semantics 1000 (fun _ => 0x1122334455667788)
     (Location.FramePointerOffset (-8))).2.1 4 (Or.inr (Or.inr rfl))⟩

/-! ### C9 — offline NL resolution and caching -/

/-- C9: `parse_with_fallback` consults the cache first and returns any hit
unchanged; otherwise it tries the offline matcher and only then the LLM
oracle.  With an empty cache, each of the inputs `第 10 行`, `第10行` and
`第 10` resolves offline to `Line none 10` — for every DWARF file list and
every LLM oracle, so no network call can influence the result — and the
result is written to the cache.  In general, every successful resolution
leaves the result in the cache under the input text. -/
theorem parse_with_fallback_offline_and_cache :
    (∀ files llmCall,
      parse_with_fallback [] nlText1 files llmCall =
        (.ok (.Line none 10, .offline), [(nlText1, .Line none 10)]) ∧
      parse_with_fallback [] nlText2 files llmCall =
        (.ok (.Line none 10, .offline), [(nlText2, .Line none 10)]) ∧
      parse_with_fallback [] nlText3 files llmCall =
        (.ok (.Line none 10, .offline), [(nlText3, .Line none 10)])) ∧
    (∀ cache text files llmCall spec, cacheGet cache text = some spec →
      parse_with_fallback cache text files llmCall =
        (.ok (spec, .cacheHit), cache)) ∧
    (∀ cache text files llmCall spec stage,
      (parse_with_fallback cache text files llmCall).1 = .ok (spec, stage) →
      cacheGet (parse_with_fallback cache text files llmCall).2 text =
        some spec) := by
  refine ⟨fun files llmCall => ⟨rfl, rfl, rfl⟩, ?_, ?_⟩
  · intro cache text files llmCall spec h
    simp only [parse_with_fallback]
    rw [h]
  · intro cache text files llmCall spec stage h
    cases hc : cacheGet cache text with
    | some c =>
      simp only [parse_with_fallback] at h ⊢
      rw [hc] at h ⊢
      dsimp only at h
      injection h with h
      injection h with h1 h2
      subst h1
      exact hc
    | none =>
      cases ht : try_simple_parse text files with
      | some s =>
        simp only [parse_with_fallback] at h ⊢
        rw [hc, ht] at h ⊢
        dsimp only at h
        injection h with h
        injection h with h1 h2
        subst h1
        exact cacheGet_cacheInsert_self cache text s
      | none =>
        cases llmCall with
        | error e =>
          simp only [parse_with_fallback] at h
          rw [hc, ht] at h
          dsimp only at h
          cases h
        | ok s =>
          simp only [parse_with_fallback] at h ⊢
          rw [hc, ht] at h ⊢
          dsimp only at h
          injection h with h
          injection h with h1 h2
          subst h1
          exact cacheGet_cacheInsert_self cache text s

/-- Witness for C9: resolving `第 10 行` offline with an empty cache and a
failing LLM oracle, then hitting the cache on the second call. -/
theorem parse_with_fallback_witness :
    parse_with_fallback [] nlText1 [] (.error ()) =
      (.ok (.Line none 10, .offline), [(nlText1, .Line none 10)]) ∧
    cacheGet [(nlText1, BreakpointSpec.Line none 10)] nlText1 =
      some (.Line none 10) ∧
    parse_with_fallback [(nlText1, BreakpointSpec.Line none 10)] nlText1 []
        (.error ()) =
      (.ok (.Line none 10, .cacheHit), [(nlText1, .Line none 10)]) :=
  ⟨(parse_with_fallback_offline_and_cache.1 [] (.error ())).1,
   by decide,
   parse_with_fallback_offline_and_cache.2.1
     [(nlText1, BreakpointSpec.Line none 10)] nlText1 [] (.error ())
     (.Line none 10) (by decide)⟩

end KongDbg
